import Mathlib

/-!
Verification of `encoding-binary` (`include/encoding/binary/buffer.h`):
byte-order codecs (`little_endian`, `big_endian`, `native_endian`), the
runtime-checked `basic_buffer`, and the compile-time-checked
`basic_static_buffer`.

Bytes (C++ `uint8_t`) are modelled as `Nat`, with the value-truncating
cast `uint8_t(e)` written `e % 256`; `uint16_t`/`uint32_t`/`uint64_t`
arithmetic is `Nat` arithmetic with `% 2^16` / `% 2^32` / `% 2^64` at the
points where the C++ expression's type truncates.  `>>`/`<<`/`|` are
`>>>`/`<<<`/`|||`.  A memory region is a `List Nat` of its bytes and a
pointer into it is its offset from `begin`.
-/

namespace EncodingBinary

/-- `endian_base::encode(uint8_t val, uint8_t *buf)`: `*buf = val`.
(`val` is a `uint8_t`, so its object representation is `val % 256`.) -/
def endian_base.encode8 (val : Nat) : List Nat := [val % 256]

/-- `endian_base::decode(const uint8_t *buf, uint8_t &val)`: `val = *buf`. -/
def endian_base.decode8 (buf : List Nat) : Nat := buf.getD 0 0

namespace little_endian

/-- `little_endian::encode(uint16_t, uint8_t*)`. -/
def encode16 (val : Nat) : List Nat :=
  [val % 256, (val >>> 8) % 256]

/-- `little_endian::decode(const uint8_t*, uint16_t&)`:
`val = uint16_t(buf[1] << 8) | buf[0]`. -/
def decode16 (buf : List Nat) : Nat :=
  (((buf.getD 1 0 <<< 8) % 65536) ||| buf.getD 0 0) % 65536

/-- `little_endian::encode(uint32_t, uint8_t*)`. -/
def encode32 (val : Nat) : List Nat :=
  [val % 256, (val >>> 8) % 256, (val >>> 16) % 256, (val >>> 24) % 256]

/-- `little_endian::decode(const uint8_t*, uint32_t&)`. -/
def decode32 (buf : List Nat) : Nat :=
  (((buf.getD 3 0 <<< 24) % 4294967296 |||
    (buf.getD 2 0 <<< 16) % 4294967296 |||
    (buf.getD 1 0 <<< 8) % 4294967296 |||
    buf.getD 0 0)) % 4294967296

/-- `little_endian::encode(uint64_t, uint8_t*)`. -/
def encode64 (val : Nat) : List Nat :=
  [val % 256, (val >>> 8) % 256, (val >>> 16) % 256, (val >>> 24) % 256,
   (val >>> 32) % 256, (val >>> 40) % 256, (val >>> 48) % 256, (val >>> 56) % 256]

/-- `little_endian::decode(const uint8_t*, uint64_t&)`. -/
def decode64 (buf : List Nat) : Nat :=
  (((buf.getD 7 0 <<< 56) % 18446744073709551616 |||
    (buf.getD 6 0 <<< 48) % 18446744073709551616 |||
    (buf.getD 5 0 <<< 40) % 18446744073709551616 |||
    (buf.getD 4 0 <<< 32) % 18446744073709551616 |||
    (buf.getD 3 0 <<< 24) % 18446744073709551616 |||
    (buf.getD 2 0 <<< 16) % 18446744073709551616 |||
    (buf.getD 1 0 <<< 8) % 18446744073709551616 |||
    buf.getD 0 0)) % 18446744073709551616

end little_endian

namespace big_endian

/-- `big_endian::encode(uint16_t, uint8_t*)`. -/
def encode16 (val : Nat) : List Nat :=
  [(val >>> 8) % 256, val % 256]

/-- `big_endian::decode(const uint8_t*, uint16_t&)`:
`val = uint16_t(buf[0] << 8) | buf[1]`. -/
def decode16 (buf : List Nat) : Nat :=
  (((buf.getD 0 0 <<< 8) % 65536) ||| buf.getD 1 0) % 65536

/-- `big_endian::encode(uint32_t, uint8_t*)`. -/
def encode32 (val : Nat) : List Nat :=
  [(val >>> 24) % 256, (val >>> 16) % 256, (val >>> 8) % 256, val % 256]

/-- `big_endian::decode(const uint8_t*, uint32_t&)`. -/
def decode32 (buf : List Nat) : Nat :=
  (((buf.getD 0 0 <<< 24) % 4294967296 |||
    (buf.getD 1 0 <<< 16) % 4294967296 |||
    (buf.getD 2 0 <<< 8) % 4294967296 |||
    buf.getD 3 0)) % 4294967296

/-- `big_endian::encode(uint64_t, uint8_t*)`. -/
def encode64 (val : Nat) : List Nat :=
  [(val >>> 56) % 256, (val >>> 48) % 256, (val >>> 40) % 256, (val >>> 32) % 256,
   (val >>> 24) % 256, (val >>> 16) % 256, (val >>> 8) % 256, val % 256]

/-- `big_endian::decode(const uint8_t*, uint64_t&)`. -/
def decode64 (buf : List Nat) : Nat :=
  (((buf.getD 0 0 <<< 56) % 18446744073709551616 |||
    (buf.getD 1 0 <<< 48) % 18446744073709551616 |||
    (buf.getD 2 0 <<< 40) % 18446744073709551616 |||
    (buf.getD 3 0 <<< 32) % 18446744073709551616 |||
    (buf.getD 4 0 <<< 24) % 18446744073709551616 |||
    (buf.getD 5 0 <<< 16) % 18446744073709551616 |||
    (buf.getD 6 0 <<< 8) % 18446744073709551616 |||
    buf.getD 7 0)) % 18446744073709551616

end big_endian

/-- If `a` is a multiple of a power of two that bounds `b`, bitwise or
with `b` is addition.  Used to evaluate the or-chains in the decoders. -/
theorem lor_eq_add (a b m : Nat) (h : ∃ i, m = 2 ^ i) (h1 : m ∣ a)
    (h2 : b < m) : a ||| b = a + b := by
  obtain ⟨i, rfl⟩ := h
  obtain ⟨c, rfl⟩ := h1
  exact (Nat.mul_add_lt_is_or h2 c).symm

/-- `little_endian` 16-bit decode on explicit bytes. -/
theorem le_decode16_bytes (b0 b1 : Nat) (h0 : b0 < 256) (h1 : b1 < 256) :
    little_endian.decode16 [b0, b1] = b1 * 256 + b0 := by
  simp only [little_endian.decode16, List.getD_cons_zero, List.getD_cons_succ,
    Nat.shiftLeft_eq]
  norm_num
  rw [Nat.mod_eq_of_lt (show b1 * 256 < 65536 by omega),
    lor_eq_add (b1 * 256) b0 256 ⟨8, by norm_num⟩ ⟨b1, by ring⟩ (by omega),
    Nat.mod_eq_of_lt (by omega)]

/-- `big_endian` 16-bit decode on explicit bytes. -/
theorem be_decode16_bytes (b0 b1 : Nat) (h0 : b0 < 256) (h1 : b1 < 256) :
    big_endian.decode16 [b0, b1] = b0 * 256 + b1 := by
  simp only [big_endian.decode16, List.getD_cons_zero, List.getD_cons_succ,
    Nat.shiftLeft_eq]
  norm_num
  rw [Nat.mod_eq_of_lt (show b0 * 256 < 65536 by omega),
    lor_eq_add (b0 * 256) b1 256 ⟨8, by norm_num⟩ ⟨b0, by ring⟩ (by omega),
    Nat.mod_eq_of_lt (by omega)]

/-- `little_endian` 32-bit decode on explicit bytes. -/
theorem le_decode32_bytes (b0 b1 b2 b3 : Nat) (h0 : b0 < 256) (h1 : b1 < 256)
    (h2 : b2 < 256) (h3 : b3 < 256) :
    little_endian.decode32 [b0, b1, b2, b3] =
      b3 * 16777216 + b2 * 65536 + b1 * 256 + b0 := by
  simp only [little_endian.decode32, List.getD_cons_zero, List.getD_cons_succ,
    Nat.shiftLeft_eq]
  norm_num
  rw [Nat.mod_eq_of_lt (show b3 * 16777216 < 4294967296 by omega),
    Nat.mod_eq_of_lt (show b2 * 65536 < 4294967296 by omega),
    Nat.mod_eq_of_lt (show b1 * 256 < 4294967296 by omega),
    lor_eq_add (b3 * 16777216) (b2 * 65536) 16777216 ⟨24, by norm_num⟩
      ⟨b3, by ring⟩ (by omega),
    lor_eq_add (b3 * 16777216 + b2 * 65536) (b1 * 256) 65536 ⟨16, by norm_num⟩
      ⟨b3 * 256 + b2, by ring⟩ (by omega),
    lor_eq_add (b3 * 16777216 + b2 * 65536 + b1 * 256) b0 256 ⟨8, by norm_num⟩
      ⟨b3 * 65536 + b2 * 256 + b1, by ring⟩ (by omega),
    Nat.mod_eq_of_lt (by omega)]

/-- `big_endian` 32-bit decode on explicit bytes. -/
theorem be_decode32_bytes (b0 b1 b2 b3 : Nat) (h0 : b0 < 256) (h1 : b1 < 256)
    (h2 : b2 < 256) (h3 : b3 < 256) :
    big_endian.decode32 [b0, b1, b2, b3] =
      b0 * 16777216 + b1 * 65536 + b2 * 256 + b3 := by
  simp only [big_endian.decode32, List.getD_cons_zero, List.getD_cons_succ,
    Nat.shiftLeft_eq]
  norm_num
  rw [Nat.mod_eq_of_lt (show b0 * 16777216 < 4294967296 by omega),
    Nat.mod_eq_of_lt (show b1 * 65536 < 4294967296 by omega),
    Nat.mod_eq_of_lt (show b2 * 256 < 4294967296 by omega),
    lor_eq_add (b0 * 16777216) (b1 * 65536) 16777216 ⟨24, by norm_num⟩
      ⟨b0, by ring⟩ (by omega),
    lor_eq_add (b0 * 16777216 + b1 * 65536) (b2 * 256) 65536 ⟨16, by norm_num⟩
      ⟨b0 * 256 + b1, by ring⟩ (by omega),
    lor_eq_add (b0 * 16777216 + b1 * 65536 + b2 * 256) b3 256 ⟨8, by norm_num⟩
      ⟨b0 * 65536 + b1 * 256 + b2, by ring⟩ (by omega),
    Nat.mod_eq_of_lt (by omega)]

/-- `little_endian` 64-bit decode on explicit bytes. -/
theorem le_decode64_bytes (b0 b1 b2 b3 b4 b5 b6 b7 : Nat)
    (h0 : b0 < 256) (h1 : b1 < 256) (h2 : b2 < 256) (h3 : b3 < 256)
    (h4 : b4 < 256) (h5 : b5 < 256) (h6 : b6 < 256) (h7 : b7 < 256) :
    little_endian.decode64 [b0, b1, b2, b3, b4, b5, b6, b7] =
      b7 * 72057594037927936 + b6 * 281474976710656 + b5 * 1099511627776 +
      b4 * 4294967296 + b3 * 16777216 + b2 * 65536 + b1 * 256 + b0 := by
  simp only [little_endian.decode64, List.getD_cons_zero, List.getD_cons_succ,
    Nat.shiftLeft_eq]
  norm_num
  rw [Nat.mod_eq_of_lt (show b7 * 72057594037927936 < 18446744073709551616 by omega),
    Nat.mod_eq_of_lt (show b6 * 281474976710656 < 18446744073709551616 by omega),
    Nat.mod_eq_of_lt (show b5 * 1099511627776 < 18446744073709551616 by omega),
    Nat.mod_eq_of_lt (show b4 * 4294967296 < 18446744073709551616 by omega),
    Nat.mod_eq_of_lt (show b3 * 16777216 < 18446744073709551616 by omega),
    Nat.mod_eq_of_lt (show b2 * 65536 < 18446744073709551616 by omega),
    Nat.mod_eq_of_lt (show b1 * 256 < 18446744073709551616 by omega),
    lor_eq_add (b7 * 72057594037927936) (b6 * 281474976710656)
      72057594037927936 ⟨56, by norm_num⟩ ⟨b7, by ring⟩ (by omega),
    lor_eq_add (b7 * 72057594037927936 + b6 * 281474976710656)
      (b5 * 1099511627776) 281474976710656 ⟨48, by norm_num⟩
      ⟨b7 * 256 + b6, by ring⟩ (by omega),
    lor_eq_add (b7 * 72057594037927936 + b6 * 281474976710656 +
        b5 * 1099511627776) (b4 * 4294967296) 1099511627776 ⟨40, by norm_num⟩
      ⟨b7 * 65536 + b6 * 256 + b5, by ring⟩ (by omega),
    lor_eq_add (b7 * 72057594037927936 + b6 * 281474976710656 +
        b5 * 1099511627776 + b4 * 4294967296) (b3 * 16777216)
      4294967296 ⟨32, by norm_num⟩
      ⟨b7 * 16777216 + b6 * 65536 + b5 * 256 + b4, by ring⟩ (by omega),
    lor_eq_add (b7 * 72057594037927936 + b6 * 281474976710656 +
        b5 * 1099511627776 + b4 * 4294967296 + b3 * 16777216) (b2 * 65536)
      16777216 ⟨24, by norm_num⟩
      ⟨b7 * 4294967296 + b6 * 16777216 + b5 * 65536 + b4 * 256 + b3, by ring⟩
      (by omega),
    lor_eq_add (b7 * 72057594037927936 + b6 * 281474976710656 +
        b5 * 1099511627776 + b4 * 4294967296 + b3 * 16777216 + b2 * 65536)
      (b1 * 256) 65536 ⟨16, by norm_num⟩
      ⟨b7 * 1099511627776 + b6 * 4294967296 + b5 * 16777216 + b4 * 65536 +
        b3 * 256 + b2, by ring⟩ (by omega),
    lor_eq_add (b7 * 72057594037927936 + b6 * 281474976710656 +
        b5 * 1099511627776 + b4 * 4294967296 + b3 * 16777216 + b2 * 65536 +
        b1 * 256) b0 256 ⟨8, by norm_num⟩
      ⟨b7 * 281474976710656 + b6 * 1099511627776 + b5 * 4294967296 +
        b4 * 16777216 + b3 * 65536 + b2 * 256 + b1, by ring⟩ (by omega),
    Nat.mod_eq_of_lt (by omega)]

/-- `big_endian` 64-bit decode on explicit bytes. -/
theorem be_decode64_bytes (b0 b1 b2 b3 b4 b5 b6 b7 : Nat)
    (h0 : b0 < 256) (h1 : b1 < 256) (h2 : b2 < 256) (h3 : b3 < 256)
    (h4 : b4 < 256) (h5 : b5 < 256) (h6 : b6 < 256) (h7 : b7 < 256) :
    big_endian.decode64 [b0, b1, b2, b3, b4, b5, b6, b7] =
      b0 * 72057594037927936 + b1 * 281474976710656 + b2 * 1099511627776 +
      b3 * 4294967296 + b4 * 16777216 + b5 * 65536 + b6 * 256 + b7 := by
  simp only [big_endian.decode64, List.getD_cons_zero, List.getD_cons_succ,
    Nat.shiftLeft_eq]
  norm_num
  rw [Nat.mod_eq_of_lt (show b0 * 72057594037927936 < 18446744073709551616 by omega),
    Nat.mod_eq_of_lt (show b1 * 281474976710656 < 18446744073709551616 by omega),
    Nat.mod_eq_of_lt (show b2 * 1099511627776 < 18446744073709551616 by omega),
    Nat.mod_eq_of_lt (show b3 * 4294967296 < 18446744073709551616 by omega),
    Nat.mod_eq_of_lt (show b4 * 16777216 < 18446744073709551616 by omega),
    Nat.mod_eq_of_lt (show b5 * 65536 < 18446744073709551616 by omega),
    Nat.mod_eq_of_lt (show b6 * 256 < 18446744073709551616 by omega),
    lor_eq_add (b0 * 72057594037927936) (b1 * 281474976710656)
      72057594037927936 ⟨56, by norm_num⟩ ⟨b0, by ring⟩ (by omega),
    lor_eq_add (b0 * 72057594037927936 + b1 * 281474976710656)
      (b2 * 1099511627776) 281474976710656 ⟨48, by norm_num⟩
      ⟨b0 * 256 + b1, by ring⟩ (by omega),
    lor_eq_add (b0 * 72057594037927936 + b1 * 281474976710656 +
        b2 * 1099511627776) (b3 * 4294967296) 1099511627776 ⟨40, by norm_num⟩
      ⟨b0 * 65536 + b1 * 256 + b2, by ring⟩ (by omega),
    lor_eq_add (b0 * 72057594037927936 + b1 * 281474976710656 +
        b2 * 1099511627776 + b3 * 4294967296) (b4 * 16777216)
      4294967296 ⟨32, by norm_num⟩
      ⟨b0 * 16777216 + b1 * 65536 + b2 * 256 + b3, by ring⟩ (by omega),
    lor_eq_add (b0 * 72057594037927936 + b1 * 281474976710656 +
        b2 * 1099511627776 + b3 * 4294967296 + b4 * 16777216) (b5 * 65536)
      16777216 ⟨24, by norm_num⟩
      ⟨b0 * 4294967296 + b1 * 16777216 + b2 * 65536 + b3 * 256 + b4, by ring⟩
      (by omega),
    lor_eq_add (b0 * 72057594037927936 + b1 * 281474976710656 +
        b2 * 1099511627776 + b3 * 4294967296 + b4 * 16777216 + b5 * 65536)
      (b6 * 256) 65536 ⟨16, by norm_num⟩
      ⟨b0 * 1099511627776 + b1 * 4294967296 + b2 * 16777216 + b3 * 65536 +
        b4 * 256 + b5, by ring⟩ (by omega),
    lor_eq_add (b0 * 72057594037927936 + b1 * 281474976710656 +
        b2 * 1099511627776 + b3 * 4294967296 + b4 * 16777216 + b5 * 65536 +
        b6 * 256) b7 256 ⟨8, by norm_num⟩
      ⟨b0 * 281474976710656 + b1 * 1099511627776 + b2 * 4294967296 +
        b3 * 16777216 + b4 * 65536 + b5 * 256 + b6, by ring⟩ (by omega),
    Nat.mod_eq_of_lt (by omega)]

/-- The supported operand types `uint8_t`/`uint16_t`/`uint32_t`/`uint64_t`
of the `encode`/`decode` overload sets. -/
inductive Width
  | w8
  | w16
  | w32
  | w64
deriving DecidableEq

/-- `sizeof` of the operand type. -/
def Width.bytes : Width → Nat
  | .w8 => 1
  | .w16 => 2
  | .w32 => 4
  | .w64 => 8

theorem Width.bytes_pos (w : Width) : 1 ≤ w.bytes := by
  cases w <;> decide

/-- The three byte-order strategy classes.  `nativeEndian` models
`native_endian` on a little-endian host (e.g. x86-64), where the in-memory
representation read and written through `reinterpret_cast` is the
little-endian byte sequence. -/
inductive ByteOrder
  | littleEndian
  | bigEndian
  | nativeEndian
deriving DecidableEq

/-- Overload resolution of `ByteOrder::encode(value, buf)`: picks the
overload for the operand type (8-bit falls back to `endian_base`). -/
def encodeW : ByteOrder → Width → Nat → List Nat
  | _, .w8, v => endian_base.encode8 v
  | .littleEndian, .w16, v => little_endian.encode16 v
  | .littleEndian, .w32, v => little_endian.encode32 v
  | .littleEndian, .w64, v => little_endian.encode64 v
  | .bigEndian, .w16, v => big_endian.encode16 v
  | .bigEndian, .w32, v => big_endian.encode32 v
  | .bigEndian, .w64, v => big_endian.encode64 v
  | .nativeEndian, .w16, v => little_endian.encode16 v
  | .nativeEndian, .w32, v => little_endian.encode32 v
  | .nativeEndian, .w64, v => little_endian.encode64 v

/-- Overload resolution of `ByteOrder::decode(buf, value)`. -/
def decodeW : ByteOrder → Width → List Nat → Nat
  | _, .w8, buf => endian_base.decode8 buf
  | .littleEndian, .w16, buf => little_endian.decode16 buf
  | .littleEndian, .w32, buf => little_endian.decode32 buf
  | .littleEndian, .w64, buf => little_endian.decode64 buf
  | .bigEndian, .w16, buf => big_endian.decode16 buf
  | .bigEndian, .w32, buf => big_endian.decode32 buf
  | .bigEndian, .w64, buf => big_endian.decode64 buf
  | .nativeEndian, .w16, buf => little_endian.decode16 buf
  | .nativeEndian, .w32, buf => little_endian.decode32 buf
  | .nativeEndian, .w64, buf => little_endian.decode64 buf

/-- An encode always produces exactly `sizeof` bytes. -/
theorem encodeW_length (bo : ByteOrder) (w : Width) (v : Nat) :
    (encodeW bo w v).length = w.bytes := by
  cases bo <;> cases w <;> rfl

/-- Every byte an encode produces is an octet. -/
theorem encodeW_bytes_lt (bo : ByteOrder) (w : Width) (v : Nat) :
    ∀ b ∈ encodeW bo w v, b < 256 := by
  cases bo <;> cases w <;>
    simp [encodeW, endian_base.encode8,
      little_endian.encode16, little_endian.encode32, little_endian.encode64,
      big_endian.encode16, big_endian.encode32, big_endian.encode64] <;>
    omega

/-- `little_endian` 16-bit round trip. -/
theorem le16_roundtrip (v : Nat) (h : v < 65536) :
    little_endian.decode16 (little_endian.encode16 v) = v := by
  simp only [little_endian.encode16, Nat.shiftRight_eq_div_pow]
  rw [le_decode16_bytes _ _ (by omega) (by omega)]
  norm_num
  omega

/-- `big_endian` 16-bit round trip. -/
theorem be16_roundtrip (v : Nat) (h : v < 65536) :
    big_endian.decode16 (big_endian.encode16 v) = v := by
  simp only [big_endian.encode16, Nat.shiftRight_eq_div_pow]
  rw [be_decode16_bytes _ _ (by omega) (by omega)]
  norm_num
  omega

/-- `little_endian` 32-bit round trip. -/
theorem le32_roundtrip (v : Nat) (h : v < 4294967296) :
    little_endian.decode32 (little_endian.encode32 v) = v := by
  simp only [little_endian.encode32, Nat.shiftRight_eq_div_pow]
  rw [le_decode32_bytes _ _ _ _ (by omega) (by omega) (by omega) (by omega)]
  norm_num
  omega

/-- `big_endian` 32-bit round trip. -/
theorem be32_roundtrip (v : Nat) (h : v < 4294967296) :
    big_endian.decode32 (big_endian.encode32 v) = v := by
  simp only [big_endian.encode32, Nat.shiftRight_eq_div_pow]
  rw [be_decode32_bytes _ _ _ _ (by omega) (by omega) (by omega) (by omega)]
  norm_num
  omega

/-- `little_endian` 64-bit round trip. -/
theorem le64_roundtrip (v : Nat) (h : v < 18446744073709551616) :
    little_endian.decode64 (little_endian.encode64 v) = v := by
  simp only [little_endian.encode64, Nat.shiftRight_eq_div_pow]
  rw [le_decode64_bytes _ _ _ _ _ _ _ _ (by omega) (by omega) (by omega)
    (by omega) (by omega) (by omega) (by omega) (by omega)]
  norm_num
  omega

/-- `big_endian` 64-bit round trip. -/
theorem be64_roundtrip (v : Nat) (h : v < 18446744073709551616) :
    big_endian.decode64 (big_endian.encode64 v) = v := by
  simp only [big_endian.encode64, Nat.shiftRight_eq_div_pow]
  rw [be_decode64_bytes _ _ _ _ _ _ _ _ (by omega) (by omega) (by omega)
    (by omega) (by omega) (by omega) (by omega) (by omega)]
  norm_num
  omega

/-- Round trip of every codec at every supported width: `decode` after
`encode` is the identity on representable values. -/
theorem decodeW_encodeW (bo : ByteOrder) (w : Width) (v : Nat)
    (h : v < 2 ^ (8 * w.bytes)) :
    decodeW bo w (encodeW bo w v) = v := by
  have h8 : ∀ u : Nat, u < 256 →
      endian_base.decode8 (endian_base.encode8 u) = u := fun u hu => by
    simp only [endian_base.encode8, endian_base.decode8, List.getD_cons_zero]
    omega
  cases bo <;> cases w <;> simp only [Width.bytes] at h <;> norm_num at h
  case littleEndian.w8 => exact h8 v h
  case littleEndian.w16 => exact le16_roundtrip v h
  case littleEndian.w32 => exact le32_roundtrip v h
  case littleEndian.w64 => exact le64_roundtrip v h
  case bigEndian.w8 => exact h8 v h
  case bigEndian.w16 => exact be16_roundtrip v h
  case bigEndian.w32 => exact be32_roundtrip v h
  case bigEndian.w64 => exact be64_roundtrip v h
  case nativeEndian.w8 => exact h8 v h
  case nativeEndian.w16 => exact le16_roundtrip v h
  case nativeEndian.w32 => exact le32_roundtrip v h
  case nativeEndian.w64 => exact le64_roundtrip v h

/-- Sequential byte stores `buf[0] = bytes[0]; buf[1] = bytes[1]; ...`
through a pointer at offset `p` into region `d` (the codecs' `encode`
bodies and the byte-copy loop both write this way).  A store past the end
of the region is dropped, matching the fact that the callers only store
in bounds. -/
def writeBytes (d : List Nat) (p : Nat) : List Nat → List Nat
  | [] => d
  | x :: xs => writeBytes (d.set p x) (p + 1) xs

/-- Sequential byte loads `buf[0], buf[1], ...` through a pointer at
offset `p` (the codecs' `decode` bodies and `memcpy` read this way). -/
def readBytes (d : List Nat) (p n : Nat) : List Nat :=
  (List.range n).map fun i => d.getD (p + i) 0

theorem writeBytes_length (bs : List Nat) (d : List Nat) (p : Nat) :
    (writeBytes d p bs).length = d.length := by
  induction bs generalizing d p with
  | nil => rfl
  | cons x xs ih => simp [writeBytes, ih]

/-- Stores at `[p, p + bs.length)` leave every other offset unchanged. -/
theorem writeBytes_getD_outside (bs : List Nat) (d : List Nat) (p i : Nat)
    (h : i < p ∨ p + bs.length ≤ i) :
    (writeBytes d p bs).getD i 0 = d.getD i 0 := by
  induction bs generalizing d p with
  | nil => rfl
  | cons x xs ih =>
    have hip : i ≠ p := by simp at h; omega
    rw [writeBytes, ih _ _ (by simp at h ⊢; omega)]
    simp [List.getD_eq_getElem?_getD, List.getElem?_set_ne (Ne.symm hip)]

/-- Loading back a stored byte: offset `p + i` of the written region holds
`bs[i]`, provided the stores were in bounds. -/
theorem writeBytes_getD_inside (bs : List Nat) (d : List Nat) (p i : Nat)
    (hi : i < bs.length) (hb : p + bs.length ≤ d.length) :
    (writeBytes d p bs).getD (p + i) 0 = bs.getD i 0 := by
  induction bs generalizing d p i with
  | nil => simp at hi
  | cons x xs ih =>
    match i with
    | 0 =>
      rw [writeBytes, writeBytes_getD_outside _ _ _ _ (by omega)]
      have hp : p < d.length := by simp at hb; omega
      simp [List.getD_eq_getElem?_getD, List.getElem?_set_self hp]
    | i + 1 =>
      rw [writeBytes, show p + (i + 1) = (p + 1) + i by omega,
        ih _ _ _ (by simp at hi; omega) (by simp; simp at hb; omega)]
      simp

/-- Reading back exactly the bytes just written. -/
theorem readBytes_writeBytes (bs : List Nat) (d : List Nat) (p : Nat)
    (hb : p + bs.length ≤ d.length) :
    readBytes (writeBytes d p bs) p bs.length = bs := by
  apply List.ext_getElem (by simp [readBytes])
  intro i h1 h2
  simp only [readBytes, List.getElem_map, List.getElem_range]
  rw [show (writeBytes d p bs).getD (p + i) 0 = bs.getD i 0 from
    writeBytes_getD_inside bs d p i (by simpa using h2) hb,
    List.getD_eq_getElem?_getD, List.getElem?_eq_getElem h2]
  rfl

/-- Reads depend only on the offsets they touch. -/
theorem readBytes_congr (d d2 : List Nat) (p n : Nat)
    (h : ∀ i, p ≤ i → i < p + n → d.getD i 0 = d2.getD i 0) :
    readBytes d p n = readBytes d2 p n := by
  apply List.ext_getElem (by simp [readBytes])
  intro i h1 h2
  simp only [readBytes, List.getElem_map, List.getElem_range]
  exact h (p + i) (by omega) (by simp [readBytes] at h1; omega)

/-- The `basic_buffer` state: the bytes of the region `[begin_, end_)`
and the cursor `pos_` as an offset from `begin_`.  `begin_` is offset `0`
and `end_` is offset `data.length`; both are immutable (`const` members),
so only `data`'s contents and `pos` evolve. -/
structure Buffer where
  data : List Nat
  pos : Nat
deriving DecidableEq

/-- The constructors `basic_buffer(begin, end)` / `(begin, length)` /
`(array)`: `pos_` starts at `begin_`. -/
def Buffer.ofRegion (d : List Nat) : Buffer := ⟨d, 0⟩

/-- `size()`: `end() - begin()`. -/
def Buffer.size (b : Buffer) : Nat := b.data.length

/-- `bytes_left()`: `end() - pos()`. -/
def Buffer.bytes_left (b : Buffer) : Nat := b.data.length - b.pos

/-- `reset()`: `pos_ = begin()`. -/
def Buffer.reset (b : Buffer) : Buffer := { b with pos := 0 }

/-- The `begin <= pos <= end` invariant (the `begin <=` half is implicit
in the offset representation). -/
def Buffer.inv (b : Buffer) : Prop := b.pos ≤ b.data.length

/-- `put(T value)`: throws `Overflow` if `bytes_left() < sizeof(value)`
(leaving the buffer untouched), else encodes at `pos()` and advances
`pos_` by `sizeof(value)`.  The `Bool` is `false` when the overload threw. -/
def Buffer.put_fixed (bo : ByteOrder) (b : Buffer) (w : Width) (v : Nat) :
    Buffer × Bool :=
  if b.bytes_left < w.bytes then (b, false)
  else (⟨writeBytes b.data b.pos (encodeW bo w v), b.pos + w.bytes⟩, true)

/-- The copy loop of `put(const value_type *from, std::size_t length)`:
`for (; from != to && pos_ != end_; ++pos_, ++from) *pos_ = *from;`
followed by `if (from != to) throw Overflow;`. -/
def Buffer.put_bytes (b : Buffer) : List Nat → Buffer × Bool
  | [] => (b, true)
  | x :: xs =>
    if b.pos = b.data.length then (b, false)
    else Buffer.put_bytes ⟨b.data.set b.pos x, b.pos + 1⟩ xs

/-- `get(T &value)`: throws `Overflow` if `bytes_left() < sizeof(value)`
(buffer untouched, output reference unwritten — modelled as `0`), else
decodes at `pos()` and advances `pos_`. -/
def Buffer.get_fixed (bo : ByteOrder) (b : Buffer) (w : Width) :
    Buffer × Nat × Bool :=
  if b.bytes_left < w.bytes then (b, 0, false)
  else ({ b with pos := b.pos + w.bytes },
    decodeW bo w (readBytes b.data b.pos w.bytes), true)

/-- `get(value_type *dst, std::size_t length)`: throws `Overflow` if
`bytes_left() < length` before touching anything, else `memcpy`s
`length` bytes from `pos()` and advances `pos_`. -/
def Buffer.get_bytes (b : Buffer) (n : Nat) : Buffer × List Nat × Bool :=
  if b.bytes_left < n then (b, [], false)
  else ({ b with pos := b.pos + n }, readBytes b.data b.pos n, true)

/-- `skip(std::size_t count)`: throws `Overflow` if
`bytes_left() < count`, else advances `pos_` by `count`. -/
def Buffer.skip (b : Buffer) (n : Nat) : Buffer × Bool :=
  if b.bytes_left < n then (b, false) else ({ b with pos := b.pos + n }, true)

/-- One member-function call on a `basic_buffer`. -/
inductive Op
  | putF (w : Width) (v : Nat)
  | putB (src : List Nat)
  | getF (w : Width)
  | getB (n : Nat)
  | skip (n : Nat)
  | reset
deriving DecidableEq

/-- The buffer state after a call, whether it returned normally or threw
(on a throw the C++ object keeps the state it had at the throw site). -/
def Buffer.step (bo : ByteOrder) (b : Buffer) : Op → Buffer
  | .putF w v => (b.put_fixed bo w v).1
  | .putB src => (b.put_bytes src).1
  | .getF w => (b.get_fixed bo w).1
  | .getB n => (b.get_bytes n).1
  | .skip n => (b.skip n).1
  | .reset => b.reset

/-- The buffer state after a whole call sequence. -/
def Buffer.run (bo : ByteOrder) (b : Buffer) (ops : List Op) : Buffer :=
  ops.foldl (Buffer.step bo) b

/-- Full characterization of the byte-copy `put` loop: it copies until
the source or the destination capacity runs out, whichever is first; if
the source was not exhausted it throws with `pos_` at `end_`. -/
theorem put_bytes_spec (src : List Nat) (b : Buffer) (h : b.inv) :
    b.put_bytes src =
      if src.length ≤ b.bytes_left then
        (⟨writeBytes b.data b.pos src, b.pos + src.length⟩, true)
      else
        (⟨writeBytes b.data b.pos (src.take b.bytes_left),
          b.data.length⟩, false) := by
  induction src generalizing b with
  | nil =>
    simp [Buffer.put_bytes, writeBytes]
  | cons x xs ih =>
    rw [Buffer.put_bytes]
    by_cases hend : b.pos = b.data.length
    · rw [if_pos hend]
      have hbl : b.bytes_left = 0 := by
        simp only [Buffer.bytes_left]; omega
      rw [if_neg (by simp [hbl])]
      simp [hbl, writeBytes, ← hend]
    · rw [if_neg hend]
      have hlt : b.pos < b.data.length := by
        have := h; simp only [Buffer.inv] at this; omega
      have hinv : (Buffer.mk (b.data.set b.pos x) (b.pos + 1)).inv := by
        simp only [Buffer.inv, List.length_set]; omega
      rw [ih _ hinv]
      have hbl : b.bytes_left = (Buffer.mk (b.data.set b.pos x)
          (b.pos + 1)).bytes_left + 1 := by
        simp only [Buffer.bytes_left, List.length_set]; omega
      by_cases hc : xs.length ≤ (Buffer.mk (b.data.set b.pos x)
          (b.pos + 1)).bytes_left
      · rw [if_pos hc, if_pos (by simp only [List.length_cons]; omega)]
        simp only [writeBytes, List.length_cons]
        rw [show b.pos + (xs.length + 1) = b.pos + 1 + xs.length by omega]
      · rw [if_neg hc, if_neg (by simp only [List.length_cons]; omega)]
        simp only [List.length_set, writeBytes]
        rw [hbl, List.take_succ_cons]
        simp only [writeBytes]

/-- The copy loop never moves `pos_` backward. -/
theorem put_bytes_pos_mono (src : List Nat) (b : Buffer) :
    b.pos ≤ (b.put_bytes src).1.pos := by
  induction src generalizing b with
  | nil => exact Nat.le_refl _
  | cons x xs ih =>
    rw [Buffer.put_bytes]
    by_cases hend : b.pos = b.data.length
    · rw [if_pos hend]
    · rw [if_neg hend]
      exact Nat.le_trans (Nat.le_succ _) (ih ⟨b.data.set b.pos x, b.pos + 1⟩)

/-- The copy loop preserves the region's length. -/
theorem put_bytes_length (src : List Nat) (b : Buffer) :
    (b.put_bytes src).1.data.length = b.data.length := by
  induction src generalizing b with
  | nil => rfl
  | cons x xs ih =>
    rw [Buffer.put_bytes]
    by_cases hend : b.pos = b.data.length
    · rw [if_pos hend]
    · rw [if_neg hend, ih]
      exact List.length_set ..

/-- Every call preserves `begin <= pos <= end` and the region's extent. -/
theorem step_inv (bo : ByteOrder) (b : Buffer) (op : Op) (h : b.inv) :
    (b.step bo op).inv ∧ (b.step bo op).data.length = b.data.length := by
  simp only [Buffer.inv, Buffer.bytes_left] at h ⊢
  cases op with
  | putF w v =>
    simp only [Buffer.step, Buffer.put_fixed]
    by_cases hc : b.data.length - b.pos < w.bytes
    · rw [if_pos (by simpa [Buffer.bytes_left] using hc)]
      exact ⟨h, rfl⟩
    · rw [if_neg (by simpa [Buffer.bytes_left] using hc)]
      refine ⟨?_, writeBytes_length ..⟩
      simp only [writeBytes_length]
      omega
  | putB src =>
    refine ⟨?_, put_bytes_length src b⟩
    simp only [Buffer.step]
    rw [put_bytes_spec src b h]
    by_cases hc : src.length ≤ b.bytes_left
    · rw [if_pos hc]
      simp only [Buffer.bytes_left] at hc
      simp only [writeBytes_length]
      omega
    · rw [if_neg hc]
      simp only [writeBytes_length]
      exact Nat.le_refl _
  | getF w =>
    simp only [Buffer.step, Buffer.get_fixed]
    by_cases hc : b.data.length - b.pos < w.bytes
    · rw [if_pos (by simpa [Buffer.bytes_left] using hc)]
      exact ⟨h, rfl⟩
    · rw [if_neg (by simpa [Buffer.bytes_left] using hc)]
      exact ⟨show b.pos + w.bytes ≤ b.data.length by omega, rfl⟩
  | getB n =>
    simp only [Buffer.step, Buffer.get_bytes]
    by_cases hc : b.data.length - b.pos < n
    · rw [if_pos (by simpa [Buffer.bytes_left] using hc)]
      exact ⟨h, rfl⟩
    · rw [if_neg (by simpa [Buffer.bytes_left] using hc)]
      exact ⟨show b.pos + n ≤ b.data.length by omega, rfl⟩
  | skip n =>
    simp only [Buffer.step, Buffer.skip]
    by_cases hc : b.data.length - b.pos < n
    · rw [if_pos (by simpa [Buffer.bytes_left] using hc)]
      exact ⟨h, rfl⟩
    · rw [if_neg (by simpa [Buffer.bytes_left] using hc)]
      exact ⟨show b.pos + n ≤ b.data.length by omega, rfl⟩
  | reset => exact ⟨Nat.zero_le _, rfl⟩

/-- Invariant preservation over whole call sequences. -/
theorem run_inv (bo : ByteOrder) (ops : List Op) (b : Buffer) (h : b.inv) :
    (b.run bo ops).inv := by
  induction ops generalizing b with
  | nil => exact h
  | cons op ops ih => exact ih _ (step_inv bo b op h).1

/-- A chain of fixed-width `put` calls (each one `buf.put(v)`); a throw
aborts the rest of the chain. -/
def putList (bo : ByteOrder) : Buffer → List (Width × Nat) → Buffer × Bool
  | b, [] => (b, true)
  | b, p :: ps =>
    if (b.put_fixed bo p.1 p.2).2 then putList bo (b.put_fixed bo p.1 p.2).1 ps
    else ((b.put_fixed bo p.1 p.2).1, false)

/-- A chain of fixed-width `get` calls, collecting the values read; a
throw aborts the rest of the chain. -/
def getList (bo : ByteOrder) : Buffer → List Width → Buffer × List Nat × Bool
  | b, [] => (b, [], true)
  | b, w :: ws =>
    if (b.get_fixed bo w).2.2 then
      ((getList bo (b.get_fixed bo w).1 ws).1,
       (b.get_fixed bo w).2.1 :: (getList bo (b.get_fixed bo w).1 ws).2.1,
       (getList bo (b.get_fixed bo w).1 ws).2.2)
    else ((b.get_fixed bo w).1, [], false)

/-- A fixed-width `put` returns normally exactly when the value fits. -/
theorem put_fixed_true_iff (bo : ByteOrder) (b : Buffer) (w : Width)
    (v : Nat) : (b.put_fixed bo w v).2 = true ↔ w.bytes ≤ b.bytes_left := by
  simp only [Buffer.put_fixed]
  split <;> rename_i hc <;> simp <;> omega

/-- Shape of a successful fixed-width `put`. -/
theorem put_fixed_of_le (bo : ByteOrder) (b : Buffer) (w : Width) (v : Nat)
    (h : w.bytes ≤ b.bytes_left) :
    b.put_fixed bo w v =
      (⟨writeBytes b.data b.pos (encodeW bo w v), b.pos + w.bytes⟩, true) := by
  simp only [Buffer.put_fixed]
  rw [if_neg (by omega)]

/-- A `put` chain preserves the region's length. -/
theorem putList_length (bo : ByteOrder) (ps : List (Width × Nat)) :
    ∀ b : Buffer, (putList bo b ps).1.data.length = b.data.length := by
  induction ps with
  | nil => intro b; rfl
  | cons p ps ih =>
    intro b
    rw [putList]
    split
    · rw [ih]
      simp only [Buffer.put_fixed]
      split
      · rfl
      · exact writeBytes_length ..
    · simp only [Buffer.put_fixed]
      split
      · rfl
      · exact writeBytes_length ..

/-- A `put` chain only stores at offsets at or above the starting
position: everything below it is untouched. -/
theorem putList_frame (bo : ByteOrder) (ps : List (Width × Nat)) :
    ∀ (b : Buffer) (i : Nat), i < b.pos →
      (putList bo b ps).1.data.getD i 0 = b.data.getD i 0 := by
  induction ps with
  | nil => intro b i _; rfl
  | cons p ps ih =>
    intro b i hi
    rw [putList]
    by_cases hc : (b.put_fixed bo p.1 p.2).2 = true
    · rw [if_pos hc]
      rw [put_fixed_true_iff] at hc
      rw [put_fixed_of_le bo b p.1 p.2 hc]
      rw [ih ⟨writeBytes b.data b.pos (encodeW bo p.1 p.2),
        b.pos + p.1.bytes⟩ i (show i < b.pos + p.1.bytes by omega)]
      exact writeBytes_getD_outside _ _ _ _ (Or.inl hi)
    · rw [if_neg hc]
      have hlt : b.bytes_left < p.1.bytes := by
        by_contra hle
        exact hc ((put_fixed_true_iff bo b p.1 p.2).2 (by omega))
      simp only [Buffer.put_fixed, if_pos hlt]

/-- On a successful `put` chain the cursor advances by the total operand
width. -/
theorem putList_pos (bo : ByteOrder) (ps : List (Width × Nat)) :
    ∀ b : Buffer, (putList bo b ps).2 = true →
      (putList bo b ps).1.pos = b.pos + (ps.map fun p => p.1.bytes).sum := by
  induction ps with
  | nil => intro b _; simp [putList]
  | cons p ps ih =>
    intro b hok
    rw [putList] at hok ⊢
    by_cases hc : (b.put_fixed bo p.1 p.2).2 = true
    · rw [if_pos hc] at hok ⊢
      rw [put_fixed_true_iff] at hc
      rw [put_fixed_of_le bo b p.1 p.2 hc] at hok ⊢
      rw [ih _ hok]
      simp only [List.map_cons, List.sum_cons]
      omega
    · rw [if_neg hc] at hok
      simp at hok

/-- Replaying the widths of a successful `put` chain with `get` from the
chain's starting position reproduces exactly the written values. -/
theorem putList_getList (bo : ByteOrder) (ps : List (Width × Nat)) :
    ∀ b : Buffer, b.inv → (∀ p ∈ ps, p.2 < 2 ^ (8 * p.1.bytes)) →
      (putList bo b ps).2 = true →
      getList bo ⟨(putList bo b ps).1.data, b.pos⟩ (ps.map Prod.fst) =
        ((putList bo b ps).1, ps.map Prod.snd, true) := by
  induction ps with
  | nil => intro b _ _ _; rfl
  | cons p ps ih =>
    intro b hinv hvals hok
    obtain ⟨w, v⟩ := p
    rw [putList] at hok ⊢
    by_cases hc : (b.put_fixed bo w v).2 = true
    case neg => rw [if_neg hc] at hok; simp at hok
    rw [if_pos hc] at hok ⊢
    rw [put_fixed_true_iff] at hc
    have hble : w.bytes ≤ b.data.length - b.pos := hc
    have hpos : b.pos ≤ b.data.length := hinv
    rw [put_fixed_of_le bo b w v hc] at hok ⊢
    set b2 : Buffer :=
      ⟨writeBytes b.data b.pos (encodeW bo w v), b.pos + w.bytes⟩ with hb2
    have hlen2 : b2.data.length = b.data.length := writeBytes_length ..
    have hinv2 : b2.inv := by
      show b2.pos ≤ b2.data.length
      rw [hlen2, hb2]
      show b.pos + w.bytes ≤ b.data.length
      omega
    have hflen : (putList bo b2 ps).1.data.length = b.data.length := by
      rw [putList_length, hlen2]
    have hgfst : ((⟨(putList bo b2 ps).1.data, b.pos⟩ : Buffer).get_fixed
        bo w) = (⟨(putList bo b2 ps).1.data, b.pos + w.bytes⟩,
          v, true) := by
      have hcond : ¬ ((⟨(putList bo b2 ps).1.data, b.pos⟩ :
          Buffer).bytes_left < w.bytes) := by
        show ¬ ((putList bo b2 ps).1.data.length - b.pos < w.bytes)
        rw [hflen]
        omega
      simp only [Buffer.get_fixed, if_neg hcond]
      have hr : readBytes (putList bo b2 ps).1.data b.pos w.bytes =
          encodeW bo w v := by
        rw [readBytes_congr _ b2.data _ _ fun i hi1 hi2 =>
          putList_frame bo ps b2 i hi2]
        have hrw := readBytes_writeBytes (encodeW bo w v) b.data b.pos
          (by rw [encodeW_length]; omega)
        rw [encodeW_length] at hrw
        exact hrw
      rw [hr, decodeW_encodeW bo w v (hvals (w, v) (by simp))]
    simp only [List.map_cons]
    rw [getList, hgfst]
    simp only [if_pos]
    have hih := ih b2 hinv2 (fun q hq => hvals q (by simp [hq])) hok
    rw [show (⟨(putList bo b2 ps).1.data, b.pos + w.bytes⟩ : Buffer) =
      ⟨(putList bo b2 ps).1.data, b2.pos⟩ from rfl, hih]

/-- `basic_static_buffer<.., Size, Offset>::bytes_left()`:
`Size - Offset`. -/
def static_bytes_left (S O : Nat) : Nat := S - O

/-- Compile-time admissibility and resulting offset of a
`basic_static_buffer<.., Size, Offset>` modifier of operand width `w`
(`put(T)` / `get(T&)` with `w = sizeof(T)`, or `put<Length>` /
`get<Length>` with `w = Length`): the `enable_if` guard
`w <= Size - Offset` decides whether the overload exists, and when it
does the returned buffer's type is the same buffer at `Offset + w`.
`none` models the instantiation failing to compile. -/
def static_put (S O w : Nat) : Option Nat :=
  if w ≤ S - O then some (O + w) else none

/-- A chain of static `put`s, each applied to the buffer type returned
by the previous one. -/
def static_chain (S : Nat) : Nat → List Nat → Option Nat
  | O, [] => some O
  | O, w :: ws => (static_put S O w).bind fun O2 => static_chain S O2 ws

/-- A static chain that compiles ends at offset `O + sum` and never past
`Size`. -/
theorem static_chain_some (S : Nat) (ws : List Nat) :
    ∀ O O2 : Nat, O ≤ S → static_chain S O ws = some O2 →
      O2 = O + ws.sum ∧ O2 ≤ S := by
  induction ws with
  | nil =>
    intro O O2 hO h
    simp only [static_chain, Option.some_inj] at h
    simp [← h]
    omega
  | cons w ws ih =>
    intro O O2 hO h
    rw [static_chain] at h
    by_cases hc : w ≤ S - O
    · rw [static_put, if_pos hc, Option.some_bind] at h
      have hr := ih (O + w) O2 (by omega) h
      simp only [List.sum_cons]
      omega
    · rw [static_put, if_neg hc, Option.none_bind] at h
      simp at h

/-- A static chain whose cumulative width fits compiles, ending at the
cumulative offset. -/
theorem static_chain_of_le (S : Nat) (ws : List Nat) :
    ∀ O : Nat, O + ws.sum ≤ S → static_chain S O ws = some (O + ws.sum) := by
  induction ws with
  | nil => intro O h; simp [static_chain]
  | cons w ws ih =>
    intro O h
    simp only [List.sum_cons] at h ⊢
    rw [static_chain, static_put, if_pos (by omega), Option.some_bind,
      ih (O + w) (by omega)]
    congr 1
    omega

/-- C1: for every supported width (8/16/32/64 bits), every representable
value and every byte-order strategy (little-endian, big-endian, native),
decoding the bytes produced by encoding the value under that strategy
yields the value back; equivalently, on a dynamic buffer, `put(v)`
followed by `reset()` and `get(&x)` with the same byte order and
position yields `x == v` (with the `get` returning normally). -/
theorem C1_roundtrip (bo : ByteOrder) (w : Width) (v : Nat)
    (h : v < 2 ^ (8 * w.bytes)) :
    decodeW bo w (encodeW bo w v) = v ∧
    ∀ d : List Nat, w.bytes ≤ d.length →
      ((((Buffer.ofRegion d).put_fixed bo w v).1.reset).get_fixed bo w).2 =
        (v, true) := by
  refine ⟨decodeW_encodeW bo w v h, fun d hd => ?_⟩
  rw [put_fixed_of_le bo (Buffer.ofRegion d) w v
    (show w.bytes ≤ d.length - 0 by omega)]
  show ((⟨writeBytes d 0 (encodeW bo w v), 0⟩ : Buffer).get_fixed bo w).2 =
    (v, true)
  have hcond : ¬ ((⟨writeBytes d 0 (encodeW bo w v), 0⟩ :
      Buffer).bytes_left < w.bytes) := by
    show ¬ ((writeBytes d 0 (encodeW bo w v)).length - 0 < w.bytes)
    rw [writeBytes_length]
    omega
  simp only [Buffer.get_fixed, if_neg hcond]
  have hrw := readBytes_writeBytes (encodeW bo w v) d 0
    (by rw [encodeW_length]; omega)
  rw [encodeW_length] at hrw
  show (decodeW bo w (readBytes (writeBytes d 0 (encodeW bo w v)) 0
    w.bytes), true) = (v, true)
  rw [hrw, decodeW_encodeW bo w v h]

theorem C1_roundtrip_witness :
    decodeW ByteOrder.bigEndian Width.w32
      (encodeW ByteOrder.bigEndian Width.w32 16909060) = 16909060 ∧
    ((((Buffer.ofRegion [0, 0, 0, 0]).put_fixed ByteOrder.bigEndian
      Width.w32 16909060).1.reset).get_fixed ByteOrder.bigEndian
      Width.w32).2 = (16909060, true) :=
  ⟨(C1_roundtrip ByteOrder.bigEndian Width.w32 16909060 (by decide)).1,
   (C1_roundtrip ByteOrder.bigEndian Width.w32 16909060 (by decide)).2
     [0, 0, 0, 0] (by decide)⟩

/-- C2: for every buffer constructed from a region and every sequence of
`put`/`get`/`skip`/`reset` calls — whether each call returns normally or
throws `Overflow` — `begin <= pos <= end` holds after the sequence (and
hence, since every prefix of a sequence is a sequence, before and after
every individual call). -/
theorem C2_invariant (bo : ByteOrder) (d : List Nat) (ops : List Op) :
    0 ≤ ((Buffer.ofRegion d).run bo ops).pos ∧
    ((Buffer.ofRegion d).run bo ops).pos ≤
      ((Buffer.ofRegion d).run bo ops).data.length :=
  ⟨Nat.zero_le _, run_inv bo ops (Buffer.ofRegion d) (Nat.zero_le _)⟩

/-- C3: a fixed-width `put` or `get` whose operand is wider than
`bytes_left()` throws the out-of-range error before any mutation: the
whole buffer — `pos` and the region's bytes — is returned unchanged. -/
theorem C3_check_before_mutate (bo : ByteOrder) (b : Buffer) (w : Width)
    (v : Nat) (h : b.bytes_left < w.bytes) :
    b.put_fixed bo w v = (b, false) ∧ b.get_fixed bo w = (b, 0, false) := by
  constructor <;> simp only [Buffer.put_fixed, Buffer.get_fixed, if_pos h]

theorem C3_check_before_mutate_witness :
    (Buffer.mk [7] 0).bytes_left < Width.w16.bytes ∧
    (Buffer.mk [7] 0).put_fixed ByteOrder.bigEndian Width.w16 5 =
      (Buffer.mk [7] 0, false) ∧
    (Buffer.mk [7] 0).get_fixed ByteOrder.bigEndian Width.w16 =
      (Buffer.mk [7] 0, 0, false) :=
  ⟨by decide,
   (C3_check_before_mutate ByteOrder.bigEndian (Buffer.mk [7] 0)
     Width.w16 5 (by decide)).1,
   (C3_check_before_mutate ByteOrder.bigEndian (Buffer.mk [7] 0)
     Width.w16 5 (by decide)).2⟩

/-- C4 counterexample: the claim asserts that the variable-length
`get(dst, length)` overload, like the `put` overload, advances `pos`
during a copy loop and throws only afterwards, leaving `pos` partially
advanced on failure.  In the code `get` checks `bytes_left() < length`
BEFORE any copy: on a 2-byte buffer at `pos = 0`, `get` of 3 bytes
fails with `pos` still `0` — not partially advanced to `2` as the claim
predicts. -/
theorem C4_counterexample :
    ((Buffer.mk [0, 0] 0).get_bytes 3).2.2 = false ∧
    ((Buffer.mk [0, 0] 0).get_bytes 3).1.pos = 0 ∧
    ¬ ((Buffer.mk [0, 0] 0).get_bytes 3).1.pos = 2 := by decide

/-- C4 (amended): only the variable-length `put(src, length)` overload
advances `pos` incrementally during its copy loop and throws only after
the loop detects truncation — on failure `pos` is left partially
advanced (at `end`); the variable-length `get(dst, length)` overload
instead checks bounds before any mutation, so on failure it leaves the
whole buffer (in particular `pos`) unchanged. -/
theorem C4_partial_advance (b : Buffer) (src : List Nat) (n : Nat)
    (h : b.inv) :
    (b.bytes_left < src.length →
      (b.put_bytes src).2 = false ∧
      (b.put_bytes src).1.pos = b.data.length) ∧
    (b.bytes_left < n → b.get_bytes n = (b, [], false)) := by
  constructor
  · intro hc
    rw [put_bytes_spec src b h, if_neg (by omega)]
    exact ⟨rfl, rfl⟩
  · intro hc
    simp only [Buffer.get_bytes, if_pos hc]

theorem C4_partial_advance_witness :
    (Buffer.mk [9, 9] 0).bytes_left < 3 ∧
    ((Buffer.mk [9, 9] 0).put_bytes [1, 2, 3]).2 = false ∧
    ((Buffer.mk [9, 9] 0).put_bytes [1, 2, 3]).1.pos = 2 ∧
    (Buffer.mk [9, 9] 0).get_bytes 3 = (Buffer.mk [9, 9] 0, [], false) :=
  ⟨by decide,
   ((C4_partial_advance (Buffer.mk [9, 9] 0) [1, 2, 3] 3
     (Nat.zero_le _)).1 (by decide)).1,
   ((C4_partial_advance (Buffer.mk [9, 9] 0) [1, 2, 3] 3
     (Nat.zero_le _)).1 (by decide)).2,
   (C4_partial_advance (Buffer.mk [9, 9] 0) [1, 2, 3] 3
     (Nat.zero_le _)).2 (by decide)⟩

/-- C5: `put(src, length)` copies bytes one at a time until the source
is exhausted or `pos` reaches `end`, whichever comes first.  If the
source fits it succeeds with `pos` advanced by `length`; if capacity
runs out first it throws the out-of-range error with `pos` advanced by
exactly the number of bytes actually written, i.e. `pos == end`, and
exactly the first `bytes_left()` source bytes stored. -/
theorem C5_put_bytes (b : Buffer) (src : List Nat) (h : b.inv) :
    (src.length ≤ b.bytes_left →
      b.put_bytes src =
        (⟨writeBytes b.data b.pos src, b.pos + src.length⟩, true)) ∧
    (b.bytes_left < src.length →
      b.put_bytes src =
        (⟨writeBytes b.data b.pos (src.take b.bytes_left),
          b.data.length⟩, false)) := by
  rw [put_bytes_spec src b h]
  constructor
  · intro hc
    rw [if_pos hc]
  · intro hc
    rw [if_neg (by omega)]

theorem C5_put_bytes_witness :
    ([1, 2].length ≤ (Buffer.mk [9, 9, 9] 0).bytes_left ∧
      (Buffer.mk [9, 9, 9] 0).put_bytes [1, 2] =
        (Buffer.mk [1, 2, 9] 2, true)) ∧
    ((Buffer.mk [9, 9, 9] 0).bytes_left < [1, 2, 3, 4].length ∧
      (Buffer.mk [9, 9, 9] 0).put_bytes [1, 2, 3, 4] =
        (Buffer.mk [1, 2, 3] 3, false)) :=
  ⟨⟨by decide, (C5_put_bytes (Buffer.mk [9, 9, 9] 0) [1, 2]
      (Nat.zero_le _)).1 (by decide)⟩,
   ⟨by decide, (C5_put_bytes (Buffer.mk [9, 9, 9] 0) [1, 2, 3, 4]
      (Nat.zero_le _)).2 (by decide)⟩⟩

/-- C6: encoding the 32-bit value `0x01020304` big-endian writes exactly
the bytes `[0x01, 0x02, 0x03, 0x04]`; encoding it little-endian writes
exactly `[0x04, 0x03, 0x02, 0x01]`. -/
theorem C6_byte_order :
    big_endian.encode32 16909060 = [1, 2, 3, 4] ∧
    little_endian.encode32 16909060 = [4, 3, 2, 1] := by decide

/-- C7: on a static buffer of size `S` at offset `O`, a modifier of
operand width `w` is admitted exactly when `w ≤ S - O`, and it then
yields the offset `O + w`, whose `bytes_left()` is `S - O - w`; a `put`
chain from offset `0` whose cumulative width is exactly `S` compiles
and ends with `bytes_left() = 0`, while a chain whose cumulative width
exceeds `S` is rejected (fails to instantiate). -/
theorem C7_static_offsets (S O w : Nat) (_h : O ≤ S) :
    ((static_put S O w).isSome ↔ w ≤ S - O) ∧
    (w ≤ S - O → static_put S O w = some (O + w) ∧
      static_bytes_left S (O + w) = S - O - w) ∧
    (∀ ws : List Nat, ws.sum = S →
      static_chain S 0 ws = some S ∧ static_bytes_left S S = 0) ∧
    (∀ ws : List Nat, S < ws.sum → static_chain S 0 ws = none) := by
  refine ⟨⟨fun hs => ?_, fun hw => ?_⟩, fun hw => ⟨?_, ?_⟩, fun ws hs => ?_,
    fun ws hs => ?_⟩
  · by_contra hw
    rw [static_put, if_neg hw] at hs
    simp at hs
  · rw [static_put, if_pos hw]
    rfl
  · rw [static_put, if_pos hw]
  · show S - (O + w) = S - O - w
    omega
  · refine ⟨?_, by show S - S = 0; omega⟩
    have hc := static_chain_of_le S ws 0 (by omega)
    rw [hc, Nat.zero_add, hs]
  · cases hcc : static_chain S 0 ws with
    | none => rfl
    | some O2 =>
      have hr := static_chain_some S ws 0 O2 (Nat.zero_le S) hcc
      omega

theorem C7_static_offsets_witness :
    static_put 3 1 2 = some 3 ∧
    static_chain 3 0 [2, 1] = some 3 ∧
    static_chain 3 0 [2, 2] = none :=
  ⟨((C7_static_offsets 3 1 2 (by decide)).2.1 (by decide)).1,
   ((C7_static_offsets 3 1 2 (by decide)).2.2.1 [2, 1] (by decide)).1,
   (C7_static_offsets 3 1 2 (by decide)).2.2.2 [2, 2] (by decide)⟩

/-- C8: `reset()` always sets `pos` to `begin` (for every buffer, it
never fails), and after a successful chain of fixed-width `put`s on a
fresh buffer followed by `reset()`, a chain of `get`s of the same widths
in the same order returns exactly the originally written values (all
returning normally). -/
theorem C8_reset_replay (bo : ByteOrder) (d : List Nat)
    (ps : List (Width × Nat))
    (hv : ∀ p ∈ ps, p.2 < 2 ^ (8 * p.1.bytes))
    (hok : (putList bo (Buffer.ofRegion d) ps).2 = true) :
    (∀ b : Buffer, b.reset.pos = 0) ∧
    getList bo (putList bo (Buffer.ofRegion d) ps).1.reset
        (ps.map Prod.fst) =
      ((putList bo (Buffer.ofRegion d) ps).1, ps.map Prod.snd, true) := by
  refine ⟨fun b => rfl, ?_⟩
  exact putList_getList bo ps (Buffer.ofRegion d) (Nat.zero_le _) hv hok

theorem C8_reset_replay_witness :
    (∀ p ∈ [(Width.w16, 258), (Width.w8, 7)], p.2 < 2 ^ (8 * p.1.bytes)) ∧
    (putList ByteOrder.bigEndian (Buffer.ofRegion [0, 0, 0])
      [(Width.w16, 258), (Width.w8, 7)]).2 = true ∧
    getList ByteOrder.bigEndian (putList ByteOrder.bigEndian
        (Buffer.ofRegion [0, 0, 0]) [(Width.w16, 258), (Width.w8, 7)]).1.reset
        [Width.w16, Width.w8] =
      ((putList ByteOrder.bigEndian (Buffer.ofRegion [0, 0, 0])
        [(Width.w16, 258), (Width.w8, 7)]).1, [258, 7], true) :=
  ⟨by decide, by decide,
   (C8_reset_replay ByteOrder.bigEndian [0, 0, 0]
     [(Width.w16, 258), (Width.w8, 7)] (by decide) (by decide)).2⟩

/-- C9 counterexample: the claim says `pos` only ever increases across
every sequence of buffer operations; but `reset()` is such an operation
and it moves `pos` backward: after `skip(2)` on a 2-byte buffer `pos`
is `2`, and a `reset` step lowers it to `0`. -/
theorem C9_counterexample :
    (((Buffer.ofRegion [0, 0]).step ByteOrder.bigEndian
        (Op.skip 2)).step ByteOrder.bigEndian Op.reset).pos <
      ((Buffer.ofRegion [0, 0]).step ByteOrder.bigEndian
        (Op.skip 2)).pos := by decide

/-- C9 (amended): every operation other than `reset` never decreases
`pos`, and `reset` sets `pos` exactly to `begin` — so no operation ever
moves the cursor before `begin`, which is why no distinct underflow
error condition exists. -/
theorem C9_pos_monotone (bo : ByteOrder) (b : Buffer) (op : Op) :
    (op = Op.reset → (b.step bo op).pos = 0) ∧
    (op ≠ Op.reset → b.pos ≤ (b.step bo op).pos) := by
  cases op with
  | putF w v =>
    refine ⟨(fun h => nomatch h), fun _ => ?_⟩
    simp only [Buffer.step, Buffer.put_fixed]
    split
    · exact Nat.le_refl _
    · exact Nat.le_add_right ..
  | putB src =>
    exact ⟨(fun h => nomatch h), fun _ => put_bytes_pos_mono src b⟩
  | getF w =>
    refine ⟨(fun h => nomatch h), fun _ => ?_⟩
    simp only [Buffer.step, Buffer.get_fixed]
    split
    · exact Nat.le_refl _
    · exact Nat.le_add_right ..
  | getB n =>
    refine ⟨(fun h => nomatch h), fun _ => ?_⟩
    simp only [Buffer.step, Buffer.get_bytes]
    split
    · exact Nat.le_refl _
    · exact Nat.le_add_right ..
  | skip n =>
    refine ⟨(fun h => nomatch h), fun _ => ?_⟩
    simp only [Buffer.step, Buffer.skip]
    split
    · exact Nat.le_refl _
    · exact Nat.le_add_right ..
  | reset =>
    exact ⟨fun _ => rfl, fun h => absurd rfl h⟩

theorem C9_pos_monotone_witness :
    ((Buffer.mk [5] 1).step ByteOrder.bigEndian Op.reset).pos = 0 ∧
    (Buffer.mk [5] 0).pos ≤
      ((Buffer.mk [5] 0).step ByteOrder.bigEndian (Op.skip 1)).pos :=
  ⟨(C9_pos_monotone ByteOrder.bigEndian (Buffer.mk [5] 1) Op.reset).1 rfl,
   (C9_pos_monotone ByteOrder.bigEndian (Buffer.mk [5] 0)
     (Op.skip 1)).2 (by decide)⟩

/-- C10: a successful fixed-width `put` returns normally, advances `pos`
by exactly `sizeof(value)`, writes exactly the encoded bytes at offsets
`[pos, pos + sizeof(value))`, and leaves every other byte of the region
— as well as `begin`, `end` and `size()` (the region's extent) —
unchanged. -/
theorem C10_put_frame (bo : ByteOrder) (b : Buffer) (w : Width) (v : Nat)
    (h : w.bytes ≤ b.bytes_left) :
    (b.put_fixed bo w v).2 = true ∧
    (b.put_fixed bo w v).1.pos = b.pos + w.bytes ∧
    (b.put_fixed bo w v).1.size = b.size ∧
    readBytes (b.put_fixed bo w v).1.data b.pos w.bytes = encodeW bo w v ∧
    (∀ i, i < b.pos ∨ b.pos + w.bytes ≤ i →
      (b.put_fixed bo w v).1.data.getD i 0 = b.data.getD i 0) := by
  have hble : w.bytes ≤ b.data.length - b.pos := h
  have hwpos := Width.bytes_pos w
  rw [put_fixed_of_le bo b w v h]
  refine ⟨rfl, rfl, ?_, ?_, ?_⟩
  · show (writeBytes b.data b.pos (encodeW bo w v)).length = b.data.length
    exact writeBytes_length ..
  · have hrw := readBytes_writeBytes (encodeW bo w v) b.data b.pos
      (by rw [encodeW_length]; omega)
    rw [encodeW_length] at hrw
    exact hrw
  · intro i hi
    exact writeBytes_getD_outside _ _ _ _ (by rw [encodeW_length]; exact hi)

theorem C10_put_frame_witness :
    Width.w16.bytes ≤ (Buffer.mk [9, 9, 9] 1).bytes_left ∧
    ((Buffer.mk [9, 9, 9] 1).put_fixed ByteOrder.bigEndian
      Width.w16 258).2 = true ∧
    ((Buffer.mk [9, 9, 9] 1).put_fixed ByteOrder.bigEndian
      Width.w16 258).1.pos = 1 + Width.w16.bytes ∧
    readBytes ((Buffer.mk [9, 9, 9] 1).put_fixed ByteOrder.bigEndian
      Width.w16 258).1.data 1 Width.w16.bytes =
        encodeW ByteOrder.bigEndian Width.w16 258 ∧
    ((Buffer.mk [9, 9, 9] 1).put_fixed ByteOrder.bigEndian
      Width.w16 258).1.data.getD 0 0 = 9 :=
  ⟨by decide,
   (C10_put_frame ByteOrder.bigEndian (Buffer.mk [9, 9, 9] 1) Width.w16 258
     (by decide)).1,
   (C10_put_frame ByteOrder.bigEndian (Buffer.mk [9, 9, 9] 1) Width.w16 258
     (by decide)).2.1,
   (C10_put_frame ByteOrder.bigEndian (Buffer.mk [9, 9, 9] 1) Width.w16 258
     (by decide)).2.2.2.1,
   (C10_put_frame ByteOrder.bigEndian (Buffer.mk [9, 9, 9] 1) Width.w16 258
     (by decide)).2.2.2.2 0 (Or.inl (by decide))⟩

end EncodingBinary
